import Mathlib

set_option maxHeartbeats 1000000

/- Verification development for the mindoc static site generator (main.go).

   Modelling conventions:
   * Go strings ([]byte holding UTF-8) are modelled as Lean `String`
     (a list of characters); all the literal text this program manipulates
     (".md", ".html", "/", " ") is ASCII, where byte-wise and
     character-wise operations agree.
   * Filesystem reads are modelled by storing, for every file of the input
     tree, either its contents or the error that reading it produces
     (`Except String String`).
   * The goldmark Markdown converter is an external capability, modelled
     as an arbitrary function `String → Except String String`.
   * Writes are modelled as a list of (path, contents) pairs in which a
     write replaces any previous entry with the same path (os.Create
     truncates); I/O failure of a single page write is modelled by an
     oracle `writeOut : Page → WriteOutcome` that distinguishes the
     failure points of generateHTML: MkdirAll or os.Create failing leaves
     no file, while tmpl.Execute failing happens after os.Create has
     already created and truncated the file, so a file holding whatever
     Execute managed to write is left at the destination.
   * `filepath.Walk` visits a directory's entries in lexical order
     (it sorts the names read from the directory), and `text/template`
     ranges over a map with string keys in sorted key order; both sorts
     appear explicitly in the model.
-/

namespace Mindoc

/-! ## Configuration constants (main.go lines 27-32) -/

def inputDir : String := "docs"

def outputDir : String := "site"

def indexFile : String := "index.html"

def imgDir : String := "img"

/-! ## Character-level path and string helpers

The Go standard-library string/path functions used by main.go, modelled on
the character list underlying a `String`. -/

/-- Split a character sequence at every '/' separator, keeping empty
components (the underlying operation of path parsing). -/
def splitSlash : List Char → List (List Char)
  | [] => [[]]
  | c :: cs =>
    if c = '/' then [] :: splitSlash cs
    else
      match splitSlash cs with
      | [] => [[c]]
      | h :: t => (c :: h) :: t

/-- Join path elements with the '/' separator (strings.Join(elems, "/")). -/
def slashIntercalate : List String → String
  | [] => ""
  | [s] => s
  | s :: t :: rest => s ++ "/" ++ slashIntercalate (t :: rest)

/-- `strings.HasSuffix s suf`. -/
def goHasSuffix (s suf : String) : Bool :=
  suf.data.isSuffixOf s.data

/-- `strings.TrimSuffix s suf`: drop `suf` from the end of `s` when present. -/
def goTrimSuffix (s suf : String) : String :=
  if goHasSuffix s suf then String.mk (s.data.take (s.data.length - suf.data.length)) else s

/-- `strings.ReplaceAll s " " ""`: remove every space character. -/
def removeSpaces (s : String) : String :=
  String.mk (s.data.filter (fun c => decide (c ≠ ' ')))

/-- `filepath.Base` for the nonempty, non-trailing-slash paths this program
builds: the last '/'-separated component. -/
def baseName (s : String) : String :=
  String.mk ((splitSlash s.data).getLastD [])

/-- The extension of a base (final) path component: the suffix starting at
the last dot, or empty when there is no dot. -/
def extOfBase (b : List Char) : List Char :=
  let r := b.reverse.takeWhile (fun c => decide (c ≠ '.'))
  if r.length = b.length then [] else '.' :: r.reverse

/-- `filepath.Ext`: the extension of the final path component. -/
def goExt (s : String) : String :=
  String.mk (extOfBase ((splitSlash s.data).getLastD []))

/-- `filepath.Dir` of a relative path `comps ++ [name]` whose directory part
is `comps`: "." for a root-level file, otherwise the joined components
(main.go line 154 applies this to paths produced by `filepath.Rel`). -/
def dirOf (comps : List String) : String :=
  match comps with
  | [] => "."
  | c :: rest => slashIntercalate (c :: rest)

/-- `filepath.Join`: join the elements with '/' and clean the result by
dropping empty and "." components (the program never joins ".." or rooted
elements, so the remaining rules of path.Clean are not exercised). -/
def goJoin (parts : List String) : String :=
  slashIntercalate
    (((parts.map (fun p => (splitSlash p.data).map (fun l => String.mk l))).flatten).filter
      (fun c => decide (c ≠ "" ∧ c ≠ ".")))

/-! ## Data model -/

/-- Page represents an HTML page (main.go lines 18-24). -/
structure Page where
  Title : String
  Content : String
  Dir : String
  Filename : String
deriving DecidableEq, Repr

/-- The external Markdown Renderer capability (goldmark): raw text in,
markup out or a rendering failure. -/
abbrev Renderer := String → Except String String

/-- convertMarkdownToHTML (main.go lines 202-214): on a rendering failure the
error is printed and the empty string is returned. -/
def convertMarkdownToHTML (render : Renderer) (input : String) : String :=
  match render input with
  | .error _ => ""
  | .ok s => s

/-- processFile (main.go lines 184-200).  The file read is modelled by
`readRes`: the contents on success, the read error otherwise. -/
def processFile (render : Renderer) (path dir : String) (readRes : Except String String) :
    Except String Page :=
  match readRes with
  | .error e => .error e
  | .ok input =>
    let title0 := goTrimSuffix (baseName path) (goExt path)
    let title := removeSpaces title0
    .ok { Title := title
          Content := convertMarkdownToHTML render input
          Dir := dir
          Filename := title ++ ".html" }

/-- One entry of the input directory tree: a file together with the result
of reading it, or a subdirectory with its entries. -/
inductive Entry where
  | file (name : String) (content : Except String String)
  | dir (name : String) (children : List Entry)
deriving Repr

def entryName : Entry → String
  | .file n _ => n
  | .dir n _ => n

/-- filepath.Walk reads each directory's entry names and sorts them before
descending (lexical order). -/
def sortEntries (es : List Entry) : List Entry :=
  es.mergeSort (fun a b => decide (entryName a ≤ entryName b))

theorem perm_sizeOf_eq {α : Type} [SizeOf α] {l₁ l₂ : List α} (h : l₁.Perm l₂) :
    sizeOf l₁ = sizeOf l₂ := by
  induction h with
  | nil => rfl
  | cons x _ ih => simp [ih]
  | swap x y l => simp; omega
  | trans _ _ ih₁ ih₂ => omega

theorem sizeOf_sortEntries (es : List Entry) : sizeOf (sortEntries es) = sizeOf es :=
  perm_sizeOf_eq (List.mergeSort_perm es _)

mutual
/-- The filepath.Walk traversal of main (lines 147-164), applied to one
entry located below the input root at directory components `comps`.
Directory entries are only descended into; a file whose name ends in ".md"
is processed into a Page; any error returned by the callback (a read
failure propagated by processFile) aborts the whole walk. -/
def walkEntry (render : Renderer) (comps : List String) : Entry → Except String (List Page)
  | .file name content =>
    if goHasSuffix name ".md" then
      match processFile render (slashIntercalate (inputDir :: (comps ++ [name])))
          (removeSpaces (dirOf comps)) content with
      | .error e => .error e
      | .ok p => .ok [p]
    else .ok []
  | .dir name children => walkEntries render (comps ++ [name]) (sortEntries children)
termination_by e => sizeOf e
decreasing_by simp [sizeOf_sortEntries]

/-- Walk a list of sibling entries in order, accumulating pages,
short-circuiting on the first error (filepath.Walk stops on a callback
error). -/
def walkEntries (render : Renderer) (comps : List String) : List Entry → Except String (List Page)
  | [] => .ok []
  | e :: es =>
    match walkEntry render comps e with
    | .error err => .error err
    | .ok ps =>
      match walkEntries render comps es with
      | .error err => .error err
      | .ok qs => .ok (ps ++ qs)
termination_by es => sizeOf es
decreasing_by all_goals (simp; try omega)
end

/-- The whole discovery pass of main: walk the input root (the root
directory entry itself is skipped as a directory), visiting its entries in
sorted order. -/
def walkTree (render : Renderer) (docs : List Entry) : Except String (List Page) :=
  walkEntries render [] (sortEntries docs)

/-! ## Templates (main.go lines 35-120)

The two text/template literals, split at their placeholders; template
execution is literal-text emission plus placeholder substitution.  Braces
that are literal text are written with the \x7b / \x7d escapes. -/

/-- The shared head of both templates, up to and excluding the title line. -/
def headPre : String :=
  "<!DOCTYPE html>\n<html lang=\"en\">\n<head>\n    <meta charset=\"UTF-8\">\n    <meta name=\"viewport\" content=\"width=device-width, initial-scale=1.0\">\n"

/-- The shared text of both templates between the title line and the end of
the `<body>` opening tag. -/
def styleBlock : String :=
  "    <link rel=\"preconnect\" href=\"https://rsms.me/\">\n    <link rel=\"stylesheet\" href=\"https://rsms.me/inter/inter.css\">\n    <style>\n        :root \x7b\n            font-family: Inter, sans-serif;\n            font-feature-settings: 'liga' 1, 'calt' 1; /* fix for Chrome */\n            color: #404040;\n        \x7d\n        @supports (font-variation-settings: normal) \x7b\n            :root \x7b font-family: InterVariable, sans-serif; \x7d\n        \x7d\n        body \x7b\n            padding: 20px;\n        \x7d\n        h1, h2, h3, h4, h5, h6 \x7b\n            color: #404040;\n        \x7d\n        a \x7b\n            color: #404040;\n\t\t\ttext-decoration: none;\n        \x7d\n\n\t\ta:hover \x7b\n\t\t\tfont-weight: bold;\n\t\t\x7d\n    </style>\n</head>\n<body>\n"

/-- Execution of htmlTemplate on a Page (generateHTML line 234): the
template text with `.Title` and `.Content` substituted. -/
def renderPage (p : Page) : String :=
  headPre ++ "    <title>" ++ p.Title ++ "</title>\n" ++ styleBlock
    ++ "    " ++ p.Content ++ "\n</body>\n</html>"

def concatStrs (l : List String) : String := l.foldr (fun a b => a ++ b) ""

/-- The hyperlink target written into the index for a page:
`{{.Dir}}/{{.Filename}}` (indexTemplate line 113). -/
def indexLink (p : Page) : String := p.Dir ++ "/" ++ p.Filename

/-- The body of the inner range of indexTemplate (line 113), emitted once
per page of a group. -/
def pageItem (p : Page) : String :=
  "\n            <li><a href=\"" ++ indexLink p ++ "\">" ++ p.Title
    ++ "</a></li>\n        "

/-- The body of the outer range of indexTemplate (lines 110-116), emitted
once per directory group; `base` is the registered template function
filepath.Base (lines 238-242). -/
def groupBlock (d : String) (ps : List Page) : String :=
  "\n        <li>" ++ baseName d ++ "\n        <ul>\n        " ++ concatStrs (ps.map pageItem)
    ++ "\n        </ul>\n        </li>\n    "

/-- indexTemplate text before the outer range. -/
def indexPre : String :=
  headPre ++ "    <title>Table of Contents</title>\n" ++ styleBlock
    ++ "    <h1>Table of Contents</h1>\n    <ul>\n    "

/-- indexTemplate text after the outer range. -/
def indexSuf : String := "\n    </ul>\n</body>\n</html>"

/-! ## The index (generateIndex, lines 237-262) -/

/-- Go map insertion `dirMap[page.Dir] = append(dirMap[page.Dir], page)`
(lines 250-253), on an association list keyed by Dir. -/
def dirMapInsert : List (String × List Page) → Page → List (String × List Page)
  | [], p => [(p.Dir, [p])]
  | (d, ps) :: rest, p =>
    if d = p.Dir then (d, ps ++ [p]) :: rest else (d, ps) :: dirMapInsert rest p

def buildDirMap (pages : List Page) : List (String × List Page) :=
  pages.foldl dirMapInsert []

/-- Go map lookup on the association list. -/
def dirMapFind (m : List (String × List Page)) (d : String) : List Page :=
  match m with
  | [] => []
  | (k, ps) :: rest => if k = d then ps else dirMapFind rest d

/-- text/template ranges over a map whose keys are strings in increasing
key order. -/
def sortedKeys (m : List (String × List Page)) : List String :=
  (m.map (fun g => g.1)).mergeSort (fun a b => decide (a ≤ b))

/-- generateIndex without its final file write: build the directory map and
execute indexTemplate on it. -/
def renderIndex (pages : List Page) : String :=
  let m := buildDirMap pages
  indexPre ++ concatStrs ((sortedKeys m).map (fun d => groupBlock d (dirMapFind m d))) ++ indexSuf

/-! ## Output filesystem and the whole run (main, lines 122-182) -/

/-- The destination path of a page (generateHTML line 222):
filepath.Join(outputDir, page.Dir, page.Filename). -/
def destPath (p : Page) : String := goJoin [outputDir, p.Dir, p.Filename]

/-- filepath.Join(outputDir, indexFile) (line 255). -/
def indexPath : String := goJoin [outputDir, indexFile]

/-- A write into the output tree: os.Create truncates, so a write replaces
any previous file at the same path. -/
def fsWrite (fs : List (String × String)) (path content : String) : List (String × String) :=
  fs.filter (fun e => decide (e.1 ≠ path)) ++ [(path, content)]

def fsFind (fs : List (String × String)) (path : String) : Option String :=
  (fs.find? (fun e => decide (e.1 = path))).map (fun e => e.2)

/-- Perform a sequence of file writes. -/
def writeAll (fs : List (String × String)) (files : List (String × String)) :
    List (String × String) :=
  files.foldl (fun acc f => fsWrite acc f.1 f.2) fs

/-- The outcome of generateHTML's filesystem operations for one page
(main.go lines 216-235).  `ok`: MkdirAll, os.Create and tmpl.Execute all
succeed and the full rendered page is on disk.  `createFail`: MkdirAll
(line 223) or os.Create (line 228) fails, so no file exists at the
destination.  `executeFail written`: os.Create succeeded — the file at the
destination was created and truncated — and tmpl.Execute (line 234) then
failed after emitting `written`, so a partial file holding `written` is
left on disk. -/
inductive WriteOutcome where
  | ok
  | createFail
  | executeFail (written : String)
deriving DecidableEq, Repr

/-- One iteration of the page-generation loop of main (lines 171-176):
generateHTML writes the rendered page at its destination path when the
filesystem cooperates; on a failure the error is printed and the loop
continues with the next page, with the on-disk effect of the particular
failure point (see `WriteOutcome`). -/
def genStep (writeOut : Page → WriteOutcome) (st : List (String × String) × List String)
    (p : Page) : List (String × String) × List String :=
  match writeOut p with
  | .ok => (fsWrite st.1 (destPath p) (renderPage p), st.2)
  | .createFail => (st.1, st.2 ++ ["Error generating HTML for page " ++ p.Title])
  | .executeFail written =>
    (fsWrite st.1 (destPath p) written,
      st.2 ++ ["Error generating HTML for page " ++ p.Title])

/-- The input filesystem of one run: the entries of the docs directory, and
the asset directory docs/img — `none` when it does not exist (the os.Stat
at the top of copyDir fails), otherwise its files as (name, bytes).
Nested asset subdirectories are not modelled; no claim depends on them. -/
structure InputFs where
  docs : List Entry
  img : Option (List (String × String))

/-- copyDir(docs/img, site/img) (lines 265-296) at the granularity the
claims need: a missing source makes the initial os.Stat fail and the error
propagate to main; otherwise every file is copied to
filepath.Join(site/img, name). -/
def copyDir (src : Option (List (String × String))) : Except String (List (String × String)) :=
  match src with
  | none => .error "stat docs/img: no such file or directory"
  | some files => .ok (files.map (fun f => (goJoin [outputDir, imgDir, f.1], f.2)))

/-- The observable outcome of one run of main. -/
structure RunResult where
  outputFiles : List (String × String)
  errorLog : List String
  aborted : Bool
  pages : List Page
deriving Repr

/-- main (lines 122-182).  os.RemoveAll(outputDir) first deletes the output
tree, so every run starts from an empty output filesystem.  `writeOut`
models the outcome of generateHTML's filesystem operations for each page;
a failed page write is logged and the loop continues (lines 171-176); a
copyDir error or a walk error ends the run before any page is
generated. -/
def mainRun (render : Renderer) (writeOut : Page → WriteOutcome) (fs : InputFs) : RunResult :=
  match copyDir fs.img with
  | .error e =>
    { outputFiles := [], errorLog := ["Error copying img directory: " ++ e],
      aborted := true, pages := [] }
  | .ok assets =>
    let out0 := writeAll [] assets
    match walkTree render fs.docs with
    | .error e =>
      { outputFiles := out0, errorLog := ["Error processing directory: " ++ e],
        aborted := true, pages := [] }
    | .ok pages =>
      let st1 := pages.foldl (genStep writeOut) (out0, [])
      let out2 := fsWrite st1.1 indexPath (renderIndex pages)
      { outputFiles := out2, errorLog := st1.2, aborted := false, pages := pages }

/-! ## Auxiliary notions used by the theorems -/

/-- Canonical form of a tree entry: every directory listing recursively
sorted by name.  Two stored trees denote the same filesystem exactly when
their canonical forms agree (directory entries carry no order). -/
def canon : Entry → Entry
  | .file n c => .file n c
  | .dir n cs => .dir n (sortEntries (cs.attach.map (fun x => canon x.1)))
termination_by e => sizeOf e
decreasing_by
  have := List.sizeOf_lt_of_mem x.2
  simp; omega

def canonList (cs : List Entry) : List Entry :=
  sortEntries (cs.map canon)

/-- Well-formedness of a stored directory tree: sibling names are distinct
at every level (a directory cannot contain two entries of the same name). -/
inductive WFEntry : Entry → Prop
  | file (n : String) (c : Except String String) : WFEntry (.file n c)
  | dir (n : String) (cs : List Entry) :
      (cs.map entryName).Nodup → (∀ e ∈ cs, WFEntry e) → WFEntry (.dir n cs)

def WFList (cs : List Entry) : Prop :=
  (cs.map entryName).Nodup ∧ ∀ e ∈ cs, WFEntry e

/-- The tree `cs` contains, below the directory components `dcomps`, a
document file named `nm` whose read gives `c`. -/
inductive DocFileAt : List String → String → Except String String → List Entry → Prop
  | here {nm : String} {c : Except String String} {cs : List Entry} :
      Entry.file nm c ∈ cs → DocFileAt [] nm c cs
  | there {d nm : String} {c : Except String String} {cs children : List Entry}
      {dcomps : List String} :
      Entry.dir d children ∈ cs → DocFileAt dcomps nm c children →
      DocFileAt (d :: dcomps) nm c cs

/-- Spec-side definition (for claim C4 only), following the spec's words
"all whitespace stripped": remove every whitespace character. -/
def specStripWhitespace (s : String) : String :=
  String.mk (s.data.filter (fun c => decide (¬ c.isWhitespace)))

/-- The keys (paths) of the modelled output filesystem. -/
def fsKeys (fs : List (String × String)) : List String :=
  fs.map (fun e => e.1)

/-- Resolution of an index hyperlink against the output root: index.html
sits directly in the output root, so a relative link `link` on it denotes
the path `outputRoot/link` (normalised like filepath.Join normalises). -/
def resolveLink (root link : String) : String := goJoin [root, link]

/-- The Page that the run constructs from a document named `nm` with stem
`stem` (name = stem + ".md") and read contents `input`, found below the
directory components `dcomps` of the input root. -/
def mkPage (render : Renderer) (dcomps : List String) (stem : List Char) (input : String) : Page :=
  { Title := String.mk (stem.filter (fun c => decide (c ≠ ' ')))
    Content := convertMarkdownToHTML render input
    Dir := removeSpaces (dirOf dcomps)
    Filename := String.mk (stem.filter (fun c => decide (c ≠ ' '))) ++ ".html" }

/-! ## Lemmas: paths and strings -/

theorem mk_data (s : String) : String.mk s.data = s := rfl

theorem splitSlash_ne_nil (l : List Char) : splitSlash l ≠ [] := by
  induction l with
  | nil => simp [splitSlash]
  | cons c cs ih =>
    rw [splitSlash]
    by_cases h : c = '/'
    · simp [h]
    · simp only [if_neg h]
      cases hs : splitSlash cs with
      | nil => simp
      | cons a t => simp

theorem splitSlash_append (l₁ l₂ : List Char) :
    splitSlash (l₁ ++ '/' :: l₂) = splitSlash l₁ ++ splitSlash l₂ := by
  induction l₁ with
  | nil => simp [splitSlash]
  | cons c cs ih =>
    by_cases h : c = '/'
    · subst h
      simp only [List.cons_append, splitSlash, if_pos rfl]
      simp [ih]
    · simp only [List.cons_append, splitSlash, if_neg h]
      cases hs : splitSlash cs with
      | nil => exact absurd hs (splitSlash_ne_nil cs)
      | cons a t => simp [ih, hs]

theorem splitSlash_eq_single {l : List Char} (h : '/' ∉ l) : splitSlash l = [l] := by
  induction l with
  | nil => rfl
  | cons c cs ih =>
    have hc : c ≠ '/' := fun hc => h (hc ▸ List.mem_cons_self c cs)
    rw [splitSlash, if_neg hc, ih (fun hm => h (List.mem_cons_of_mem c hm))]

theorem slashIntercalate_cons (s : String) {l : List String} (h : l ≠ []) :
    slashIntercalate (s :: l) = s ++ "/" ++ slashIntercalate l := by
  cases l with
  | nil => exact absurd rfl h
  | cons t rest => rfl

theorem data_slash : ("/" : String).data = ['/'] := rfl

theorem getLastD_of_ne_nil {α : Type} {l : List α} (h : l ≠ []) (d₁ d₂ : α) :
    l.getLastD d₁ = l.getLastD d₂ := by
  cases l with
  | nil => exact absurd rfl h
  | cons b u => rw [List.getLastD_cons, List.getLastD_cons]

theorem getLastD_append_right {α : Type} (l₁ l₂ : List α) (d : α) (h : l₂ ≠ []) :
    (l₁ ++ l₂).getLastD d = l₂.getLastD d := by
  induction l₁ generalizing d with
  | nil => rfl
  | cons a t ih =>
    rw [List.cons_append, List.getLastD_cons, ih a]
    exact getLastD_of_ne_nil h a d

/-- The last '/'-separated component of `slashIntercalate (l ++ [nm])` is
`nm`, for a name `nm` that contains no separator. -/
theorem lastComp_slashIntercalate (l : List String) (nm : String) (h : '/' ∉ nm.data) :
    (splitSlash (slashIntercalate (l ++ [nm])).data).getLastD [] = nm.data := by
  induction l with
  | nil =>
    show (splitSlash nm.data).getLastD [] = nm.data
    rw [splitSlash_eq_single h]
    rfl
  | cons s rest ih =>
    rw [List.cons_append, slashIntercalate_cons s (by simp)]
    have hd : (s ++ "/" ++ slashIntercalate (rest ++ [nm])).data
        = s.data ++ '/' :: (slashIntercalate (rest ++ [nm])).data := by
      simp [String.data_append]
    rw [hd, splitSlash_append]
    rw [getLastD_append_right _ _ _ (splitSlash_ne_nil _)]
    exact ih

theorem baseName_slashIntercalate (l : List String) (nm : String) (h : '/' ∉ nm.data) :
    baseName (slashIntercalate (l ++ [nm])) = nm := by
  unfold baseName
  rw [lastComp_slashIntercalate l nm h, mk_data]

theorem extOfBase_md (stem : List Char) :
    extOfBase (stem ++ ('.' :: 'm' :: 'd' :: [])) = '.' :: 'm' :: 'd' :: [] := by
  have hrev : (stem ++ ('.' :: 'm' :: 'd' :: [])).reverse = 'd' :: 'm' :: '.' :: stem.reverse := by
    simp
  unfold extOfBase
  rw [hrev, List.takeWhile_cons_of_pos (by decide), List.takeWhile_cons_of_pos (by decide),
    List.takeWhile_cons_of_neg (by decide)]
  rw [if_neg (by simp [List.length_append])]
  rfl

theorem goExt_slashIntercalate (l : List String) (nm : String) (stem : List Char)
    (hnm : nm.data = stem ++ ('.' :: 'm' :: 'd' :: [])) (h : '/' ∉ nm.data) :
    goExt (slashIntercalate (l ++ [nm])) = ".md" := by
  unfold goExt
  rw [lastComp_slashIntercalate l nm h, hnm, extOfBase_md]

theorem goTrimSuffix_of_data (s suf : String) (stem : List Char) (h : s.data = stem ++ suf.data) :
    goTrimSuffix s suf = String.mk stem := by
  have hsuf : suf.data.isSuffixOf s.data = true := by
    rw [List.isSuffixOf_iff_suffix]
    exact ⟨stem, h.symm⟩
  unfold goTrimSuffix goHasSuffix
  rw [if_pos hsuf, h]
  congr 1
  rw [List.length_append]
  simp [List.take_left']

/-- The fields of the Page produced by processFile for a document named
`nm` (ending in ".md") read successfully below the input root. -/
theorem processFile_ok (render : Renderer) (comps : List String) (nm d input : String)
    (stem : List Char) (hnm : nm.data = stem ++ ('.' :: 'm' :: 'd' :: []))
    (hs : '/' ∉ nm.data) :
    processFile render (slashIntercalate (inputDir :: (comps ++ [nm]))) d (.ok input) =
      .ok { Title := String.mk (stem.filter (fun c => decide (c ≠ ' ')))
            Content := convertMarkdownToHTML render input
            Dir := d
            Filename := String.mk (stem.filter (fun c => decide (c ≠ ' '))) ++ ".html" } := by
  have hl : inputDir :: (comps ++ [nm]) = (inputDir :: comps) ++ [nm] := by simp
  unfold processFile
  rw [hl, baseName_slashIntercalate _ nm hs, goExt_slashIntercalate _ nm stem hnm hs]
  have hmd : (".md" : String).data = '.' :: 'm' :: 'd' :: [] := rfl
  rw [goTrimSuffix_of_data nm ".md" stem (by rw [hnm, hmd])]
  rfl

/-! ## Lemmas: the traversal -/

theorem walkEntries_ok_of_mem {render : Renderer} {comps : List String} {e : Entry}
    {l : List Entry} {pages : List Page} (hmem : e ∈ l)
    (hok : walkEntries render comps l = .ok pages) :
    ∃ ps, walkEntry render comps e = .ok ps ∧ ∀ p ∈ ps, p ∈ pages := by
  induction l generalizing pages with
  | nil => cases hmem
  | cons a t ih =>
    rw [walkEntries] at hok
    cases ha : walkEntry render comps a with
    | error err => rw [ha] at hok; cases hok
    | ok ps =>
      rw [ha] at hok
      cases ht : walkEntries render comps t with
      | error err => rw [ht] at hok; cases hok
      | ok qs =>
        rw [ht] at hok
        cases hok
        rcases List.mem_cons.mp hmem with he | he
        · subst he
          exact ⟨ps, ha, fun p hp => List.mem_append_left _ hp⟩
        · obtain ⟨ps', hw, hsub⟩ := ih he ht
          exact ⟨ps', hw, fun p hp => List.mem_append_right _ (hsub p hp)⟩

theorem walkEntries_error_of_mem {render : Renderer} {comps : List String} {e : Entry}
    {l : List Entry} {err : String} (hmem : e ∈ l)
    (he : walkEntry render comps e = .error err) :
    ∃ e₂, walkEntries render comps l = .error e₂ := by
  induction l with
  | nil => cases hmem
  | cons a t ih =>
    rcases List.mem_cons.mp hmem with h | h
    · subst h
      exact ⟨err, by rw [walkEntries, he]⟩
    · cases ha : walkEntry render comps a with
      | error e₃ => exact ⟨e₃, by rw [walkEntries, ha]⟩
      | ok ps =>
        obtain ⟨e₄, ht⟩ := ih h
        exact ⟨e₄, by rw [walkEntries, ha, ht]⟩

theorem goHasSuffix_md {nm : String} {stem : List Char}
    (hnm : nm.data = stem ++ ('.' :: 'm' :: 'd' :: [])) :
    goHasSuffix nm ".md" = true := by
  unfold goHasSuffix
  rw [List.isSuffixOf_iff_suffix]
  exact ⟨stem, by rw [hnm]⟩

/-- A document file of the tree whose read succeeds contributes exactly the
page `mkPage` to a successful walk. -/
theorem docFile_page_mem {render : Renderer} {dcomps : List String} {nm input : String}
    {c : Except String String} {stem : List Char} {cs : List Entry} {comps : List String}
    {pages : List Page}
    (hdoc : DocFileAt dcomps nm c cs) (hc : c = .ok input)
    (hnm : nm.data = stem ++ ('.' :: 'm' :: 'd' :: [])) (hs : '/' ∉ nm.data)
    (hok : walkEntries render comps (sortEntries cs) = .ok pages) :
    mkPage render (comps ++ dcomps) stem input ∈ pages := by
  induction hdoc generalizing comps pages with
  | @here nm' c' cs' hmem =>
    subst hc
    have hmem' : Entry.file nm' (.ok input) ∈ sortEntries cs' := by
      unfold sortEntries
      exact List.mem_mergeSort.mpr hmem
    obtain ⟨ps, hw, hsub⟩ := walkEntries_ok_of_mem hmem' hok
    rw [walkEntry, if_pos (goHasSuffix_md hnm),
      processFile_ok render comps nm' _ input stem hnm hs] at hw
    cases hw
    simpa [mkPage] using hsub _ (List.mem_singleton.mpr rfl)
  | @there d nm' c' cs' children dcomps' hmemdir hdoc₂ ih =>
    have hmem' : Entry.dir d children ∈ sortEntries cs' := by
      unfold sortEntries
      exact List.mem_mergeSort.mpr hmemdir
    obtain ⟨ps, hw, hsub⟩ := walkEntries_ok_of_mem hmem' hok
    rw [walkEntry] at hw
    have hmemp := ih hc hnm hs hw
    have heq : (comps ++ [d]) ++ dcomps' = comps ++ d :: dcomps' := by simp
    exact hsub _ (heq ▸ hmemp)

/-- A document file of the tree whose read fails makes the whole walk
return an error. -/
theorem docFile_error_walk (render : Renderer) (stem : List Char) {dcomps : List String}
    {nm err : String} {c : Except String String} {cs : List Entry}
    (hdoc : DocFileAt dcomps nm c cs) (hc : c = .error err)
    (hnm : nm.data = stem ++ ('.' :: 'm' :: 'd' :: [])) :
    ∀ comps, ∃ e₂, walkEntries render comps (sortEntries cs) = .error e₂ := by
  induction hdoc with
  | @here nm' c' cs' hmem =>
    intro comps
    subst hc
    have hmem' : Entry.file nm' (.error err) ∈ sortEntries cs' := by
      unfold sortEntries
      exact List.mem_mergeSort.mpr hmem
    have hwe : walkEntry render comps (Entry.file nm' (.error err)) = .error err := by
      rw [walkEntry, if_pos (goHasSuffix_md hnm)]
      rfl
    exact walkEntries_error_of_mem hmem' hwe
  | @there d nm' c' cs' children dcomps' hmemdir hdoc₂ ih =>
    intro comps
    have hmem' : Entry.dir d children ∈ sortEntries cs' := by
      unfold sortEntries
      exact List.mem_mergeSort.mpr hmemdir
    obtain ⟨e₂, hw⟩ := ih hc hnm (comps ++ [d])
    have hwe : walkEntry render comps (Entry.dir d children) = .error e₂ := by
      rw [walkEntry]
      exact hw
    exact walkEntries_error_of_mem hmem' hwe

/-! ## Lemmas: output paths -/

theorem data_append_slash (b c : String) : (b ++ "/" ++ c).data = b.data ++ '/' :: c.data := by
  simp [String.data_append]

/-- Joining `root` with the relative link `b/c` lands on the same cleaned
path as joining `root`, `b`, `c` separately. -/
theorem goJoin_split_mid (a b c : String) : goJoin [a, b ++ "/" ++ c] = goJoin [a, b, c] := by
  unfold goJoin
  simp [data_append_slash, splitSlash_append]

/-! ## Lemmas: the modelled output filesystem -/

theorem fsKeys_fsWrite (fs : List (String × String)) (p c : String) :
    fsKeys (fsWrite fs p c) = (fsKeys fs).filter (fun k => decide (k ≠ p)) ++ [p] := by
  induction fs with
  | nil => rfl
  | cons e t ih =>
    simp only [fsWrite, fsKeys, List.map_cons, List.filter_cons] at *
    by_cases h : e.1 = p
    · simp only [h]
      simpa [h] using ih
    · simpa [h] using ih

theorem mem_fsKeys_fsWrite_self (fs : List (String × String)) (p c : String) :
    p ∈ fsKeys (fsWrite fs p c) := by
  rw [fsKeys_fsWrite]
  exact List.mem_append_right _ (List.mem_singleton.mpr rfl)

theorem mem_fsKeys_fsWrite_of_mem {fs : List (String × String)} {q : String} (p c : String)
    (h : q ∈ fsKeys fs) : q ∈ fsKeys (fsWrite fs p c) := by
  rw [fsKeys_fsWrite]
  by_cases hq : q = p
  · exact List.mem_append_right _ (List.mem_singleton.mpr hq)
  · exact List.mem_append_left _ (List.mem_filter.mpr ⟨h, by simp [hq]⟩)

theorem not_mem_fsKeys_fsWrite {fs : List (String × String)} {q : String} {p c : String}
    (h : q ∉ fsKeys fs) (hqp : q ≠ p) : q ∉ fsKeys (fsWrite fs p c) := by
  rw [fsKeys_fsWrite]
  intro hmem
  rcases List.mem_append.mp hmem with hf | hs
  · exact h (List.mem_filter.mp hf).1
  · exact hqp (List.mem_singleton.mp hs)

theorem nodup_fsKeys_fsWrite {fs : List (String × String)} (p c : String)
    (h : (fsKeys fs).Nodup) : (fsKeys (fsWrite fs p c)).Nodup := by
  rw [fsKeys_fsWrite]
  refine List.Nodup.append (h.filter _) (List.nodup_singleton p) ?_
  intro x hx hxp
  rw [List.mem_singleton] at hxp
  subst hxp
  have := (List.mem_filter.mp hx).2
  simp at this

theorem fsFind_eq_none_iff (fs : List (String × String)) (q : String) :
    fsFind fs q = none ↔ q ∉ fsKeys fs := by
  unfold fsFind fsKeys
  rw [Option.map_eq_none', List.find?_eq_none]
  constructor
  · intro h hmem
    obtain ⟨e, he, heq⟩ := List.mem_map.mp hmem
    exact (h e he) (by simp [heq])
  · intro h e he
    simp only [decide_eq_true_eq]
    intro heq
    exact h (List.mem_map.mpr ⟨e, he, heq⟩)

theorem count_fsKeys_eq_one {fs : List (String × String)} {q : String}
    (hnd : (fsKeys fs).Nodup) (hmem : q ∈ fsKeys fs) : (fsKeys fs).count q = 1 :=
  List.count_eq_one_of_mem hnd hmem

/-- A write establishes its own contents at its path. -/
theorem fsFind_fsWrite_self (fs : List (String × String)) (p c : String) :
    fsFind (fsWrite fs p c) p = some c := by
  unfold fsFind fsWrite
  rw [List.find?_append]
  have h1 : (fs.filter (fun e => decide (e.1 ≠ p))).find? (fun e => decide (e.1 = p)) = none := by
    rw [List.find?_eq_none]
    intro e he
    have h2 := (List.mem_filter.mp he).2
    simp only [decide_eq_true_eq] at h2 ⊢
    simpa using h2
  rw [h1]
  simp

/-- A write at a different path does not change what is found at `k`. -/
theorem fsFind_fsWrite_other (fs : List (String × String)) {k k₂ : String} (c : String)
    (h : k ≠ k₂) : fsFind (fsWrite fs k₂ c) k = fsFind fs k := by
  induction fs with
  | nil =>
    show (List.find? (fun e => decide (e.1 = k)) [(k₂, c)]).map (fun e => e.2) = _
    rw [List.find?_cons_of_neg _ (by simpa using Ne.symm h)]
    rfl
  | cons e t ih =>
    unfold fsFind fsWrite at *
    rw [List.filter_cons]
    by_cases he : e.1 = k₂
    · rw [if_neg (by simp [he])]
      rw [ih, List.find?_cons_of_neg _ (by simpa [he] using Ne.symm h)]
    · rw [if_pos (by simp [he])]
      by_cases hek : e.1 = k
      · rw [List.cons_append, List.find?_cons_of_pos _ (by simp [hek]),
          List.find?_cons_of_pos _ (by simp [hek])]
      · rw [List.cons_append, List.find?_cons_of_neg _ (by simp [hek]),
          List.find?_cons_of_neg _ (by simp [hek])]
        exact ih

/-! ## Lemmas: the page-generation fold of main -/

theorem genStep_fst_keys_mono {writeOut : Page → WriteOutcome}
    {st : List (String × String) × List String}
    {q : String} (p : Page) (h : q ∈ fsKeys st.1) : q ∈ fsKeys (genStep writeOut st p).1 := by
  unfold genStep
  cases writeOut p with
  | ok => exact mem_fsKeys_fsWrite_of_mem _ _ h
  | createFail => exact h
  | executeFail w => exact mem_fsKeys_fsWrite_of_mem _ _ h

theorem foldl_genStep_keys_mono {writeOut : Page → WriteOutcome} {q : String}
    (pages : List Page) :
    ∀ st : List (String × String) × List String, q ∈ fsKeys st.1 →
      q ∈ fsKeys (pages.foldl (genStep writeOut) st).1 := by
  induction pages with
  | nil => exact fun st h => h
  | cons a t ih => exact fun st h => ih _ (genStep_fst_keys_mono a h)

theorem foldl_genStep_mem_keys (writeOut : Page → WriteOutcome) (p : Page) (pages : List Page)
    (hp : p ∈ pages) (hw : writeOut p = .ok) :
    ∀ st : List (String × String) × List String,
      destPath p ∈ fsKeys (pages.foldl (genStep writeOut) st).1 := by
  induction pages with
  | nil => cases hp
  | cons a t ih =>
    intro st
    rcases List.mem_cons.mp hp with h | h
    · subst h
      refine foldl_genStep_keys_mono t _ ?_
      unfold genStep
      rw [hw]
      exact mem_fsKeys_fsWrite_self _ _ _
    · exact ih h _

theorem foldl_genStep_not_mem_keys {writeOut : Page → WriteOutcome} {q : String}
    {pages : List Page}
    (hq : ∀ p ∈ pages, writeOut p ≠ .createFail → destPath p ≠ q) :
    ∀ st : List (String × String) × List String, q ∉ fsKeys st.1 →
      q ∉ fsKeys (pages.foldl (genStep writeOut) st).1 := by
  induction pages with
  | nil => exact fun st h => h
  | cons a t ih =>
    intro st h
    refine ih (fun p hp => hq p (List.mem_cons_of_mem a hp)) _ ?_
    unfold genStep
    cases hw : writeOut a with
    | ok =>
      exact not_mem_fsKeys_fsWrite h
        (fun heq => hq a (List.mem_cons_self a t) (by rw [hw]; simp) heq.symm)
    | createFail => exact h
    | executeFail w =>
      exact not_mem_fsKeys_fsWrite h
        (fun heq => hq a (List.mem_cons_self a t) (by rw [hw]; simp) heq.symm)

theorem foldl_genStep_keys_nodup {writeOut : Page → WriteOutcome} (pages : List Page) :
    ∀ st : List (String × String) × List String, (fsKeys st.1).Nodup →
      (fsKeys (pages.foldl (genStep writeOut) st).1).Nodup := by
  induction pages with
  | nil => exact fun st h => h
  | cons a t ih =>
    intro st h
    refine ih _ ?_
    unfold genStep
    cases writeOut a with
    | ok => exact nodup_fsKeys_fsWrite _ _ h
    | createFail => exact h
    | executeFail w => exact nodup_fsKeys_fsWrite _ _ h

/-- Once `k` holds `w` and every later page that writes at `k` writes `w`
again, the fold leaves `w` at `k`. -/
theorem foldl_genStep_find_keep {writeOut : Page → WriteOutcome} {k w : String} :
    ∀ pages : List Page, (∀ q ∈ pages, destPath q = k → writeOut q = .executeFail w) →
      ∀ st : List (String × String) × List String, fsFind st.1 k = some w →
        fsFind (pages.foldl (genStep writeOut) st).1 k = some w := by
  intro pages
  induction pages with
  | nil => exact fun _ st h => h
  | cons a t ih =>
    intro hq st h
    refine ih (fun q hqt => hq q (List.mem_cons_of_mem a hqt)) _ ?_
    unfold genStep
    by_cases hak : destPath a = k
    · rw [hq a (List.mem_cons_self a t) hak]
      rw [hak]
      exact fsFind_fsWrite_self _ _ _
    · cases writeOut a with
      | ok =>
        rw [fsFind_fsWrite_other _ _ (fun hh => hak hh.symm)]
        exact h
      | createFail => exact h
      | executeFail w₂ =>
        rw [fsFind_fsWrite_other _ _ (fun hh => hak hh.symm)]
        exact h

/-- A page whose tmpl.Execute failed after os.Create succeeded leaves a
file holding the partially written bytes at its destination path, provided
no other page (with a different outcome) writes at that same path. -/
theorem foldl_genStep_find_executeFail {writeOut : Page → WriteOutcome} {p : Page} {w : String} :
    ∀ pages : List Page, p ∈ pages → writeOut p = .executeFail w →
      (∀ q ∈ pages, destPath q = destPath p → writeOut q = .executeFail w) →
      ∀ st : List (String × String) × List String,
        fsFind (pages.foldl (genStep writeOut) st).1 (destPath p) = some w := by
  intro pages
  induction pages with
  | nil => exact fun hp => absurd hp (List.not_mem_nil p)
  | cons a t ih =>
    intro hp hw huniq st
    rcases List.mem_cons.mp hp with h | h
    · subst h
      refine foldl_genStep_find_keep t (fun q hqt => huniq q (List.mem_cons_of_mem _ hqt)) _ ?_
      unfold genStep
      rw [hw]
      exact fsFind_fsWrite_self _ _ _
    · exact ih h hw (fun q hqt => huniq q (List.mem_cons_of_mem _ hqt)) _

/-! ## Lemmas: asset writes -/

theorem writeAll_keys_nodup (files : List (String × String)) :
    ∀ fs, (fsKeys fs).Nodup → (fsKeys (writeAll fs files)).Nodup := by
  induction files with
  | nil => exact fun fs h => h
  | cons f t ih =>
    intro fs h
    exact ih _ (nodup_fsKeys_fsWrite _ _ h)

theorem mem_writeAll_keys {q : String} (files : List (String × String)) :
    ∀ fs, q ∈ fsKeys (writeAll fs files) → q ∈ fsKeys fs ∨ ∃ f ∈ files, f.1 = q := by
  induction files with
  | nil => exact fun fs h => Or.inl h
  | cons f t ih =>
    intro fs h
    rcases ih _ h with hin | ⟨g, hg, hgq⟩
    · rw [fsKeys_fsWrite] at hin
      rcases List.mem_append.mp hin with hf | hs
      · exact Or.inl (List.mem_filter.mp hf).1
      · exact Or.inr ⟨f, List.mem_cons_self f t, (List.mem_singleton.mp hs).symm⟩
    · exact Or.inr ⟨g, List.mem_cons_of_mem f hg, hgq⟩

/-! ## Lemmas: the directory map of generateIndex -/

theorem dirMapInsert_keys (m : List (String × List Page)) (p : Page) :
    (dirMapInsert m p).map (fun g => g.1) =
      if p.Dir ∈ m.map (fun g => g.1) then m.map (fun g => g.1)
      else m.map (fun g => g.1) ++ [p.Dir] := by
  induction m with
  | nil => simp [dirMapInsert]
  | cons g t ih =>
    obtain ⟨d, ps⟩ := g
    by_cases h : d = p.Dir
    · subst h
      simp [dirMapInsert]
    · have h2 : ¬ p.Dir = d := fun hh => h hh.symm
      simp only [dirMapInsert, if_neg h, List.map_cons, ih, List.mem_cons]
      by_cases h3 : p.Dir ∈ t.map (fun g => g.1)
      · simp [h2, h3]
      · simp [h2, h3]

theorem dirMapInsert_keys_nodup {m : List (String × List Page)} (p : Page)
    (h : (m.map (fun g => g.1)).Nodup) : ((dirMapInsert m p).map (fun g => g.1)).Nodup := by
  rw [dirMapInsert_keys]
  by_cases h2 : p.Dir ∈ m.map (fun g => g.1)
  · rwa [if_pos h2]
  · rw [if_neg h2]
    refine List.Nodup.append h (List.nodup_singleton _) ?_
    intro x hx hxs
    rw [List.mem_singleton] at hxs
    exact h2 (hxs ▸ hx)

theorem dirMapInsert_groups {m : List (String × List Page)} (p : Page)
    (h : ∀ g ∈ m, g.2 ≠ [] ∧ ∀ q ∈ g.2, q.Dir = g.1) :
    ∀ g ∈ dirMapInsert m p, g.2 ≠ [] ∧ ∀ q ∈ g.2, q.Dir = g.1 := by
  induction m with
  | nil =>
    intro g hg
    rw [dirMapInsert, List.mem_singleton] at hg
    subst hg
    exact ⟨by simp, fun q hq => by rw [List.mem_singleton.mp hq]⟩
  | cons a t ih =>
    obtain ⟨d, ps⟩ := a
    intro g hg
    by_cases hd : d = p.Dir
    · subst hd
      rw [dirMapInsert, if_pos rfl] at hg
      rcases List.mem_cons.mp hg with hg | hg
      · subst hg
        refine ⟨by simp, fun q hq => ?_⟩
        rcases List.mem_append.mp hq with hq | hq
        · exact (h (p.Dir, ps) (List.mem_cons_self _ _)).2 q hq
        · rw [List.mem_singleton.mp hq]
      · exact h g (List.mem_cons_of_mem _ hg)
    · rw [dirMapInsert, if_neg hd] at hg
      rcases List.mem_cons.mp hg with hg | hg
      · subst hg
        exact h (d, ps) (List.mem_cons_self _ _)
      · exact ih (fun g2 hg2 => h g2 (List.mem_cons_of_mem _ hg2)) g hg

/-- The multiset of pages stored in the map: concatenation of all groups. -/
theorem dirMapInsert_count (m : List (String × List Page)) (p q : Page) :
    (((dirMapInsert m p).map (fun g => g.2)).flatten).count q =
      ((m.map (fun g => g.2)).flatten).count q + (if q = p then 1 else 0) := by
  induction m with
  | nil =>
    by_cases hq : q = p <;> simp [dirMapInsert, List.count_cons, hq, eq_comm]
  | cons a t ih =>
    obtain ⟨d, ps⟩ := a
    by_cases hd : d = p.Dir
    · subst hd
      simp only [dirMapInsert, if_pos rfl, List.map_cons, List.flatten_cons,
        List.count_append]
      by_cases hq : q = p <;> simp [List.count_cons, hq, eq_comm] <;> omega
    · simp only [dirMapInsert, if_neg hd, List.map_cons, List.flatten_cons,
        List.count_append, ih]
      omega

theorem buildDirMap_foldl (pages : List Page) :
    ∀ m0 : List (String × List Page),
      ((m0.map (fun g => g.1)).Nodup → (((pages.foldl dirMapInsert m0).map (fun g => g.1)).Nodup))
      ∧ ((∀ g ∈ m0, g.2 ≠ [] ∧ ∀ q ∈ g.2, q.Dir = g.1) →
          ∀ g ∈ pages.foldl dirMapInsert m0, g.2 ≠ [] ∧ ∀ q ∈ g.2, q.Dir = g.1)
      ∧ (∀ q : Page,
          (((pages.foldl dirMapInsert m0).map (fun g => g.2)).flatten).count q =
            ((m0.map (fun g => g.2)).flatten).count q + pages.count q) := by
  induction pages with
  | nil => exact fun m0 => ⟨fun h => h, fun h => h, fun q => by simp⟩
  | cons a t ih =>
    intro m0
    refine ⟨?_, ?_, ?_⟩
    · intro h
      exact (ih (dirMapInsert m0 a)).1 (dirMapInsert_keys_nodup a h)
    · intro h
      exact (ih (dirMapInsert m0 a)).2.1 (dirMapInsert_groups a h)
    · intro q
      rw [List.foldl_cons, (ih (dirMapInsert m0 a)).2.2 q, dirMapInsert_count,
        List.count_cons]
      simp only [beq_iff_eq]
      by_cases hq : q = a
      · subst hq
        simp only [if_pos rfl]
        omega
      · rw [if_neg hq, if_neg (fun h => hq h.symm)]
        omega

theorem mem_dirMapFind_insert_self (m : List (String × List Page)) (p : Page) :
    p ∈ dirMapFind (dirMapInsert m p) p.Dir := by
  induction m with
  | nil =>
    show p ∈ dirMapFind [(p.Dir, [p])] p.Dir
    rw [dirMapFind, if_pos rfl]
    exact List.mem_singleton.mpr rfl
  | cons a t ih =>
    obtain ⟨d, ps⟩ := a
    by_cases hd : d = p.Dir
    · subst hd
      rw [dirMapInsert, if_pos rfl, dirMapFind, if_pos rfl]
      exact List.mem_append_right _ (List.mem_singleton.mpr rfl)
    · rw [dirMapInsert, if_neg hd, dirMapFind, if_neg hd]
      exact ih

theorem mem_dirMapFind_insert_of_mem {m : List (String × List Page)} {q : Page} {d : String}
    (p : Page) (h : q ∈ dirMapFind m d) : q ∈ dirMapFind (dirMapInsert m p) d := by
  induction m with
  | nil => simp [dirMapFind] at h
  | cons a t ih =>
    obtain ⟨k, ps⟩ := a
    by_cases hk : k = p.Dir
    · subst hk
      rw [dirMapFind] at h
      rw [dirMapInsert, if_pos rfl, dirMapFind]
      by_cases hd : p.Dir = d
      · rw [if_pos hd] at h ⊢
        exact List.mem_append_left _ h
      · rw [if_neg hd] at h ⊢
        exact h
    · rw [dirMapFind] at h
      rw [dirMapInsert, if_neg hk, dirMapFind]
      by_cases hd : k = d
      · rwa [if_pos hd] at h ⊢
      · rw [if_neg hd] at h ⊢
        exact ih h

theorem mem_dirMapFind_foldl {q : Page} {d : String} (pages : List Page) :
    ∀ m0, q ∈ dirMapFind m0 d → q ∈ dirMapFind (pages.foldl dirMapInsert m0) d := by
  induction pages with
  | nil => exact fun m0 h => h
  | cons a t ih => exact fun m0 h => ih _ (mem_dirMapFind_insert_of_mem a h)

theorem mem_dirMapFind_foldl_of_mem {p : Page} (pages : List Page) (hp : p ∈ pages) :
    ∀ m0, p ∈ dirMapFind (pages.foldl dirMapInsert m0) p.Dir := by
  induction pages with
  | nil => cases hp
  | cons a t ih =>
    intro m0
    rcases List.mem_cons.mp hp with h | h
    · subst h
      exact mem_dirMapFind_foldl t _ (mem_dirMapFind_insert_self m0 p)
    · exact ih h _

theorem mem_dirMapFind_buildDirMap {pages : List Page} {p : Page} (hp : p ∈ pages) :
    p ∈ dirMapFind (buildDirMap pages) p.Dir :=
  mem_dirMapFind_foldl_of_mem pages hp []

/-- A non-trivial lookup means the key occurs in the map. -/
theorem key_mem_of_mem_dirMapFind {m : List (String × List Page)} {q : Page} {d : String}
    (h : q ∈ dirMapFind m d) : d ∈ m.map (fun g => g.1) := by
  induction m with
  | nil => simp [dirMapFind] at h
  | cons a t ih =>
    obtain ⟨k, ps⟩ := a
    rw [dirMapFind] at h
    by_cases hk : k = d
    · exact List.mem_cons.mpr (Or.inl hk.symm)
    · rw [if_neg hk] at h
      exact List.mem_cons_of_mem _ (ih h)

/-! ## Lemmas: hyperlinks present in the rendered index -/

theorem concatStrs_cons (s : String) (l : List String) :
    concatStrs (s :: l) = s ++ concatStrs l := rfl

theorem concatStrs_split {α : Type} (f : α → String) {x : α} {l : List α} (h : x ∈ l) :
    ∃ u v, concatStrs (l.map f) = u ++ (f x ++ v) := by
  induction l with
  | nil => cases h
  | cons a t ih =>
    rcases List.mem_cons.mp h with h | h
    · subst h
      exact ⟨"", concatStrs (t.map f),
        by rw [List.map_cons, concatStrs_cons, String.empty_append]⟩
    · obtain ⟨u, v, hu⟩ := ih h
      exact ⟨f a ++ u, v, by rw [List.map_cons, concatStrs_cons, hu, String.append_assoc]⟩

theorem pageItem_decomp (p : Page) :
    pageItem p = "\n            <li>" ++ (("<a href=\"" ++ indexLink p ++ "\">") ++
      (p.Title ++ "</a></li>\n        ")) := by
  have h : ("\n            <li><a href=\"" : String) = "\n            <li>" ++ "<a href=\"" := rfl
  unfold pageItem
  simp only [String.append_assoc]
  rw [h, String.append_assoc]

/-- Every page of the final list gets its anchor, with the link text
`indexLink`, somewhere in the rendered index. -/
theorem renderIndex_contains {pages : List Page} {p : Page} (hp : p ∈ pages) :
    ∃ u v, renderIndex pages = u ++ (("<a href=\"" ++ indexLink p ++ "\">") ++ v) := by
  have hfind := mem_dirMapFind_buildDirMap hp
  have hkey : p.Dir ∈ (buildDirMap pages).map (fun g => g.1) := key_mem_of_mem_dirMapFind hfind
  have hkey2 : p.Dir ∈ sortedKeys (buildDirMap pages) := by
    unfold sortedKeys
    exact List.mem_mergeSort.mpr hkey
  obtain ⟨u1, v1, h1⟩ :=
    concatStrs_split (fun d => groupBlock d (dirMapFind (buildDirMap pages) d)) hkey2
  obtain ⟨u2, v2, h2⟩ := concatStrs_split pageItem hfind
  rw [pageItem_decomp] at h2
  refine ⟨indexPre ++ (u1 ++ (("\n        <li>" ++ (baseName p.Dir ++ "\n        <ul>\n        "))
      ++ (u2 ++ "\n            <li>"))),
    (p.Title ++ "</a></li>\n        ") ++ (v2 ++ ("\n        </ul>\n        </li>\n    "
      ++ (v1 ++ indexSuf))), ?_⟩
  show indexPre ++ concatStrs ((sortedKeys (buildDirMap pages)).map
      (fun d => groupBlock d (dirMapFind (buildDirMap pages) d))) ++ indexSuf = _
  rw [h1]
  unfold groupBlock
  rw [h2]
  simp [String.append_assoc]

/-! ## Lemmas: determinism of the traversal over reordered listings

filepath.Walk sorts every directory listing it reads, so the run's output
cannot depend on the order in which the operating system happens to return
directory entries.  Trees are compared through their canonical (recursively
sorted) forms. -/

theorem entryNameLe_trans : ∀ a b c : Entry,
    decide (entryName a ≤ entryName b) → decide (entryName b ≤ entryName c) →
    decide (entryName a ≤ entryName c) := by
  intro a b c hab hbc
  simp only [decide_eq_true_eq] at *
  exact le_trans hab hbc

theorem entryNameLe_total : ∀ a b : Entry,
    decide (entryName a ≤ entryName b) || decide (entryName b ≤ entryName a) := by
  intro a b
  rcases le_total (entryName a) (entryName b) with h | h <;> simp [h]

theorem sortEntries_perm (l : List Entry) : (sortEntries l).Perm l :=
  List.mergeSort_perm l _

theorem sortEntries_sorted (l : List Entry) :
    (sortEntries l).Pairwise (fun a b => entryName a ≤ entryName b) := by
  have h := List.sorted_mergeSort entryNameLe_trans entryNameLe_total l
  exact h.imp (fun hab => by simpa using hab)

theorem sortEntries_idem (l : List Entry) : sortEntries (sortEntries l) = sortEntries l :=
  List.mergeSort_of_sorted (List.sorted_mergeSort entryNameLe_trans entryNameLe_total l)

/-- Two permutations of the same entries with pairwise-distinct names have
the same sorted form: a listing with distinct names has exactly one sorted
order. -/
theorem eq_of_perm_of_sorted_name {l₁ l₂ : List Entry} (hp : l₁.Perm l₂)
    (hs₁ : l₁.Pairwise (fun a b => entryName a ≤ entryName b))
    (hs₂ : l₂.Pairwise (fun a b => entryName a ≤ entryName b))
    (hnd : (l₁.map entryName).Nodup) : l₁ = l₂ := by
  haveI : IsAntisymm Entry (fun a b => entryName a < entryName b) :=
    ⟨fun a b h1 h2 => absurd (lt_trans h1 h2) (lt_irrefl _)⟩
  have hne₁ : l₁.Pairwise (fun a b => entryName a ≠ entryName b) :=
    List.pairwise_map.mp hnd
  have hlt₁ : l₁.Pairwise (fun a b => entryName a < entryName b) :=
    (hs₁.and hne₁).imp (fun hab => lt_of_le_of_ne hab.1 hab.2)
  have hnd₂ : (l₂.map entryName).Nodup := ((hp.map entryName).nodup_iff).mp hnd
  have hne₂ : l₂.Pairwise (fun a b => entryName a ≠ entryName b) :=
    List.pairwise_map.mp hnd₂
  have hlt₂ : l₂.Pairwise (fun a b => entryName a < entryName b) :=
    (hs₂.and hne₂).imp (fun hab => lt_of_le_of_ne hab.1 hab.2)
  exact List.eq_of_perm_of_sorted hp hlt₁ hlt₂

theorem sortEntries_eq_of_perm {l₁ l₂ : List Entry} (hp : l₁.Perm l₂)
    (hnd : (l₁.map entryName).Nodup) : sortEntries l₁ = sortEntries l₂ := by
  refine eq_of_perm_of_sorted_name ?_ (sortEntries_sorted l₁) (sortEntries_sorted l₂) ?_
  · exact (sortEntries_perm l₁).trans (hp.trans (sortEntries_perm l₂).symm)
  · exact (((sortEntries_perm l₁).map entryName).nodup_iff).mpr hnd

theorem canon_file (n : String) (c : Except String String) : canon (.file n c) = .file n c := by
  rw [canon]

theorem canon_name (e : Entry) : entryName (canon e) = entryName e := by
  cases e with
  | file n c => rw [canon_file]
  | dir n cs => rw [canon]; rfl

theorem canon_dir (n : String) (cs : List Entry) :
    canon (.dir n cs) = .dir n (sortEntries (cs.map canon)) := by
  rw [canon, List.attach_map_val cs canon]

theorem map_entryName_map_canon (cs : List Entry) :
    (cs.map canon).map entryName = cs.map entryName := by
  rw [List.map_map]
  exact List.map_congr_left (fun e _ => canon_name e)

/-- Sorting commutes with canonicalising the elements (names are
preserved), provided sibling names are distinct. -/
theorem sortEntries_map_canon {cs : List Entry} (hnd : (cs.map entryName).Nodup) :
    sortEntries (cs.map canon) = (sortEntries cs).map canon := by
  refine eq_of_perm_of_sorted_name ?_ (sortEntries_sorted _) ?_ ?_
  · exact (sortEntries_perm _).trans (((sortEntries_perm cs).symm).map canon)
  · refine List.pairwise_map.mpr ?_
    exact (sortEntries_sorted cs).imp (fun hab => by
      rwa [canon_name, canon_name])
  · refine (((sortEntries_perm (cs.map canon)).map entryName).nodup_iff).mpr ?_
    rwa [map_entryName_map_canon]

theorem walkEntries_map_canon {render : Renderer} {comps : List String} {l : List Entry}
    (h : ∀ x ∈ l, walkEntry render comps (canon x) = walkEntry render comps x) :
    walkEntries render comps (l.map canon) = walkEntries render comps l := by
  induction l with
  | nil => rfl
  | cons a t ih =>
    rw [List.map_cons, walkEntries, walkEntries,
      h a (List.mem_cons_self a t), ih (fun x hx => h x (List.mem_cons_of_mem a hx))]

/-- The traversal does not distinguish a well-formed entry from its
canonical form: the walk re-sorts every listing anyway. -/
theorem walkEntry_canon {render : Renderer} :
    ∀ (n : Nat) (e : Entry), sizeOf e ≤ n → WFEntry e →
      ∀ comps, walkEntry render comps (canon e) = walkEntry render comps e := by
  intro n
  induction n with
  | zero =>
    intro e h
    exfalso
    cases e <;> simp at h
  | succ n ih =>
    intro e hsize hwf comps
    cases e with
    | file nm c => rw [canon_file]
    | dir d cs =>
      rw [canon_dir, walkEntry, walkEntry, sortEntries_idem]
      cases hwf with
      | dir _ _ hnd hall =>
        rw [sortEntries_map_canon hnd]
        refine walkEntries_map_canon (fun x hx => ?_)
        have hxcs : x ∈ cs := (sortEntries_perm cs).mem_iff.mp hx
        have hlt : sizeOf x < sizeOf (Entry.dir d cs) := by
          have := List.sizeOf_lt_of_mem hxcs
          simp
          omega
        exact ih x (by omega) (hall x hxcs) _

/-- The whole discovery pass yields the same result on any listing order of
a well-formed tree: it is a function of the canonical tree alone. -/
theorem walkTree_canonList {render : Renderer} {cs : List Entry} (hwf : WFList cs) :
    walkTree render cs = walkEntries render [] (canonList cs) := by
  unfold walkTree canonList
  rw [sortEntries_map_canon hwf.1]
  exact (walkEntries_map_canon (fun x hx => walkEntry_canon (sizeOf x) x le_rfl
    (hwf.2 x ((sortEntries_perm cs).mem_iff.mp hx)) [])).symm

/-! ## Lemmas: the shape of a completed run -/

/-- The run on an input filesystem whose asset directory exists and whose
walk succeeds: assets copied, each page written when its write succeeds,
the index written last. -/
theorem mainRun_ok (render : Renderer) (writeOut : Page → WriteOutcome) (fs : InputFs)
    (assets : List (String × String)) (pages : List Page)
    (himg : fs.img = some assets) (hwt : walkTree render fs.docs = .ok pages) :
    mainRun render writeOut fs =
      { outputFiles := fsWrite
          (pages.foldl (genStep writeOut)
            (writeAll [] (assets.map (fun f => (goJoin [outputDir, imgDir, f.1], f.2))), [])).1
          indexPath (renderIndex pages)
        errorLog := (pages.foldl (genStep writeOut)
            (writeAll [] (assets.map (fun f => (goJoin [outputDir, imgDir, f.1], f.2))), [])).2
        aborted := false
        pages := pages } := by
  unfold mainRun
  rw [himg]
  dsimp only [copyDir]
  rw [hwt]

/-- The run on an input filesystem whose asset directory exists but whose
walk fails: the run is aborted with only the copied assets on disk. -/
theorem mainRun_walk_error (render : Renderer) (writeOut : Page → WriteOutcome) (fs : InputFs)
    (assets : List (String × String)) (err : String)
    (himg : fs.img = some assets) (hwt : walkTree render fs.docs = .error err) :
    mainRun render writeOut fs =
      { outputFiles := writeAll [] (assets.map (fun f => (goJoin [outputDir, imgDir, f.1], f.2)))
        errorLog := ["Error processing directory: " ++ err]
        aborted := true
        pages := [] } := by
  unfold mainRun
  rw [himg]
  dsimp only [copyDir]
  rw [hwt]

/-! ## Lemmas: evaluating the traversal on small concrete trees -/

theorem walkEntries_nil (render : Renderer) (comps : List String) :
    walkEntries render comps [] = .ok [] := by
  rw [walkEntries]

theorem sortEntries_singleton (e : Entry) : sortEntries [e] = [e] := by
  unfold sortEntries
  exact List.mergeSort_singleton e

theorem walkTree_singleton_ok (render : Renderer) (nm input : String) (pg : Page)
    (hsuf : goHasSuffix nm ".md" = true)
    (hproc : processFile render (slashIntercalate [inputDir, nm]) (removeSpaces (dirOf []))
      (.ok input) = .ok pg) :
    walkTree render [.file nm (.ok input)] = .ok [pg] := by
  unfold walkTree
  rw [sortEntries_singleton, walkEntries, walkEntry, if_pos hsuf]
  simp only [List.nil_append]
  rw [hproc, walkEntries_nil]
  simp

/-! ## The claims -/

/-- C9: if the configured asset subdirectory docs/img does not exist, the
run aborts after the output directory has already been deleted and before
any document is discovered, any page is written or the index is generated:
the run terminates leaving no generated output at all. -/
theorem C9_missing_img_aborts_empty (render : Renderer) (writeOut : Page → WriteOutcome)
    (fs : InputFs) (h : fs.img = none) :
    (mainRun render writeOut fs).outputFiles = [] ∧
    (mainRun render writeOut fs).aborted = true ∧
    (mainRun render writeOut fs).pages = [] := by
  unfold mainRun
  rw [h]
  exact ⟨rfl, rfl, rfl⟩

theorem C9_witness :
    (mainRun (fun s => Except.ok s) (fun _ => WriteOutcome.ok)
      { docs := [Entry.file "a.md" (.ok "x")], img := none }).outputFiles = [] ∧
    (mainRun (fun s => Except.ok s) (fun _ => WriteOutcome.ok)
      { docs := [Entry.file "a.md" (.ok "x")], img := none }).aborted = true ∧
    (mainRun (fun s => Except.ok s) (fun _ => WriteOutcome.ok)
      { docs := [Entry.file "a.md" (.ok "x")], img := none }).pages = [] :=
  C9_missing_img_aborts_empty _ _ _ rfl

/-- C1 counterexample: the claim says a failing read of one document file
is logged and skipped and the traversal continues with the remaining
documents.  On the input tree holding an unreadable a.md and a readable
b.md, the run instead aborts: it discovers no pages at all and b.md's
output file site/b.html does not exist. -/
theorem C1_counterexample :
    (mainRun (fun s => Except.ok s) (fun _ => WriteOutcome.ok)
      { docs := [Entry.file "a.md" (.error "permission denied"), Entry.file "b.md" (.ok "x")],
        img := some [] }).aborted = true ∧
    (mainRun (fun s => Except.ok s) (fun _ => WriteOutcome.ok)
      { docs := [Entry.file "a.md" (.error "permission denied"), Entry.file "b.md" (.ok "x")],
        img := some [] }).pages = [] ∧
    fsFind (mainRun (fun s => Except.ok s) (fun _ => WriteOutcome.ok)
      { docs := [Entry.file "a.md" (.error "permission denied"), Entry.file "b.md" (.ok "x")],
        img := some [] }).outputFiles "site/b.html" = none := by
  obtain ⟨err, hw⟩ := docFile_error_walk (fun s => Except.ok s) ['a']
    (@DocFileAt.here "a.md" (.error "permission denied") _ (List.mem_cons_self _ _)) rfl
    (by decide) []
  have hwt : walkTree (fun s => Except.ok s)
      [Entry.file "a.md" (.error "permission denied"), Entry.file "b.md" (.ok "x")] =
        .error err := hw
  rw [mainRun_walk_error _ _ _ [] err rfl hwt]
  exact ⟨rfl, rfl, rfl⟩

/-- C1 amended: a failing read of any document file during the traversal
aborts the WHOLE walk and the run: no pages are discovered and nothing but
the copied assets is in the output tree (the walk callback returns the
error, filepath.Walk stops, and main exits). -/
theorem C1_amended (render : Renderer) (writeOut : Page → WriteOutcome) (fs : InputFs)
    (assets : List (String × String)) (stem : List Char) {dcomps : List String}
    {nm err : String} (himg : fs.img = some assets)
    (hdoc : DocFileAt dcomps nm (.error err) fs.docs)
    (hnm : nm.data = stem ++ ('.' :: 'm' :: 'd' :: [])) :
    (mainRun render writeOut fs).aborted = true ∧
    (mainRun render writeOut fs).pages = [] ∧
    (mainRun render writeOut fs).outputFiles =
      writeAll [] (assets.map (fun f => (goJoin [outputDir, imgDir, f.1], f.2))) := by
  obtain ⟨e₂, hw⟩ := docFile_error_walk render stem hdoc rfl hnm []
  have hwt : walkTree render fs.docs = .error e₂ := hw
  rw [mainRun_walk_error render writeOut fs assets e₂ himg hwt]
  exact ⟨rfl, rfl, rfl⟩

theorem C1_amended_witness :
    (mainRun (fun s => Except.ok s) (fun _ => WriteOutcome.ok)
      { docs := [Entry.file "a.md" (.error "permission denied"), Entry.file "b.md" (.ok "x")],
        img := some [("logo.png", "PNG")] }).aborted = true ∧
    (mainRun (fun s => Except.ok s) (fun _ => WriteOutcome.ok)
      { docs := [Entry.file "a.md" (.error "permission denied"), Entry.file "b.md" (.ok "x")],
        img := some [("logo.png", "PNG")] }).pages = [] ∧
    (mainRun (fun s => Except.ok s) (fun _ => WriteOutcome.ok)
      { docs := [Entry.file "a.md" (.error "permission denied"), Entry.file "b.md" (.ok "x")],
        img := some [("logo.png", "PNG")] }).outputFiles =
      writeAll [] ([("logo.png", "PNG")].map (fun f => (goJoin [outputDir, imgDir, f.1], f.2))) :=
  C1_amended _ _ _ _ ['a'] rfl
    (@DocFileAt.here "a.md" (.error "permission denied") _ (List.mem_cons_self _ _)) (by decide)

/-- C4 counterexample: the claim says the title is the stem of the filename
under ONE fixed whitespace policy, all whitespace stripped or all
preserved.  For the document "a\tb c.md" the produced title is "a\tbc":
the space is removed but the tab is kept, so the title matches neither
policy. -/
theorem C4_counterexample :
    processFile (fun s => Except.ok s) "docs/a\tb c.md" "." (.ok "x") =
      .ok { Title := "a\tbc", Content := "x", Dir := ".", Filename := "a\tbc.html" } ∧
    ("a\tbc" : String) ≠ specStripWhitespace "a\tb c" ∧
    ("a\tbc" : String) ≠ "a\tb c" := by
  refine ⟨rfl, by decide, by decide⟩

/-- C4 amended: the title of every Page Record equals the base filename
with the ".md" extension stripped and exactly the space characters (U+0020)
removed; all other characters, including other whitespace, are kept. -/
theorem C4_amended (render : Renderer) (comps : List String) (nm d input : String)
    (stem : List Char) (hnm : nm.data = stem ++ ('.' :: 'm' :: 'd' :: []))
    (hs : '/' ∉ nm.data) :
    ∃ pg, processFile render (slashIntercalate (inputDir :: (comps ++ [nm]))) d (.ok input) =
        .ok pg ∧ pg.Title = String.mk (stem.filter (fun c => decide (c ≠ ' '))) :=
  ⟨_, processFile_ok render comps nm d input stem hnm hs, rfl⟩

theorem C4_witness :
    ∃ pg, processFile (fun s => Except.ok s)
        (slashIntercalate (inputDir :: ([] ++ ["a\tb c.md"]))) "." (.ok "x") = .ok pg ∧
      pg.Title = String.mk ((['a', '\t', 'b', ' ', 'c'] : List Char).filter
        (fun c => decide (c ≠ ' '))) :=
  C4_amended _ [] _ _ _ ['a', '\t', 'b', ' ', 'c'] (by decide) (by decide)

/-- C5 counterexample: the claim says the output filename is the source
filename with ".md" replaced by ".html" and nothing else changed.  For
"my file.md" the produced output filename is "myfile.html", not
"my file.html": the space was also removed. -/
theorem C5_counterexample :
    processFile (fun s => Except.ok s) "docs/my file.md" "." (.ok "x") =
      .ok { Title := "myfile", Content := "x", Dir := ".", Filename := "myfile.html" } ∧
    ("myfile.html" : String) ≠ "my file.html" := by
  refine ⟨rfl, by decide⟩

/-- C5 amended: the output filename of every Page Record equals the base
filename with the ".md" extension stripped, every space character removed,
and ".html" appended. -/
theorem C5_amended (render : Renderer) (comps : List String) (nm d input : String)
    (stem : List Char) (hnm : nm.data = stem ++ ('.' :: 'm' :: 'd' :: []))
    (hs : '/' ∉ nm.data) :
    ∃ pg, processFile render (slashIntercalate (inputDir :: (comps ++ [nm]))) d (.ok input) =
        .ok pg ∧
      pg.Filename = String.mk (stem.filter (fun c => decide (c ≠ ' '))) ++ ".html" :=
  ⟨_, processFile_ok render comps nm d input stem hnm hs, rfl⟩

theorem C5_witness :
    ∃ pg, processFile (fun s => Except.ok s)
        (slashIntercalate (inputDir :: ([] ++ ["my file.md"]))) "." (.ok "x") = .ok pg ∧
      pg.Filename = String.mk ((['m', 'y', ' ', 'f', 'i', 'l', 'e'] : List Char).filter
        (fun c => decide (c ≠ ' '))) ++ ".html" :=
  C5_amended _ [] _ _ _ ['m', 'y', ' ', 'f', 'i', 'l', 'e'] (by decide) (by decide)

/-- C6: in the grouped table of contents, the link written for a Page
Record is exactly the text `Dir/Filename`, and resolving that link against
the output root yields exactly the destination path at which the Page
Writer writes that record's file. -/
theorem C6_grouped_links (pages : List Page) (p : Page) (hp : p ∈ pages) :
    (∃ u v, renderIndex pages = u ++ (("<a href=\"" ++ indexLink p ++ "\">") ++ v)) ∧
    resolveLink outputDir (indexLink p) = destPath p :=
  ⟨renderIndex_contains hp, goJoin_split_mid outputDir p.Dir p.Filename⟩

theorem C6_witness :
    (∃ u v, renderIndex [{ Title := "a", Content := "x", Dir := ".", Filename := "a.html" }] =
      u ++ (("<a href=\"" ++
        indexLink { Title := "a", Content := "x", Dir := ".", Filename := "a.html" } ++ "\">") ++ v)) ∧
    resolveLink outputDir
        (indexLink { Title := "a", Content := "x", Dir := ".", Filename := "a.html" }) =
      destPath { Title := "a", Content := "x", Dir := ".", Filename := "a.html" } :=
  C6_grouped_links _ _ (List.mem_singleton.mpr rfl)

/-- C7: in the grouped navigation structure, every record lands in the
group keyed by its Dir, each record is counted exactly once across all
groups, no group is empty, and no key occurs twice. -/
theorem C7_grouping (pages : List Page) :
    ((buildDirMap pages).map (fun g => g.1)).Nodup ∧
    (∀ g ∈ buildDirMap pages, g.2 ≠ [] ∧ ∀ q ∈ g.2, q.Dir = g.1) ∧
    (∀ q : Page, (((buildDirMap pages).map (fun g => g.2)).flatten).count q = pages.count q) := by
  have h0 := buildDirMap_foldl pages []
  refine ⟨h0.1 (by simp), h0.2.1 (by simp), fun q => ?_⟩
  have h3 := h0.2.2 q
  simpa using h3

/-- C8: the run is a function of the input tree alone.  Two runs over
stored trees that list the same well-formed directories (in any order),
with the same asset directory, produce identical results — every run
starts from a freshly cleared output directory, the walk sorts every
directory listing, and the index template visits map keys in sorted
order. -/
theorem C8_deterministic_rebuild (render : Renderer) (writeOut : Page → WriteOutcome)
    (fs₁ fs₂ : InputFs) (h1 : WFList fs₁.docs) (h2 : WFList fs₂.docs)
    (hdocs : canonList fs₁.docs = canonList fs₂.docs) (himg : fs₁.img = fs₂.img) :
    mainRun render writeOut fs₁ = mainRun render writeOut fs₂ := by
  have hwt : walkTree render fs₁.docs = walkTree render fs₂.docs := by
    rw [walkTree_canonList h1, walkTree_canonList h2, hdocs]
  unfold mainRun
  rw [himg, hwt]

theorem C8_witness :
    mainRun (fun s => Except.ok s) (fun _ => WriteOutcome.ok)
        { docs := [Entry.file "b.md" (.ok "y"), Entry.file "a.md" (.ok "x")], img := some [] } =
      mainRun (fun s => Except.ok s) (fun _ => WriteOutcome.ok)
        { docs := [Entry.file "a.md" (.ok "x"), Entry.file "b.md" (.ok "y")], img := some [] } :=
  C8_deterministic_rebuild _ _ _ _
    ⟨by decide, by
      intro e he
      simp at he
      rcases he with rfl | rfl
      · exact WFEntry.file _ _
      · exact WFEntry.file _ _⟩
    ⟨by decide, by
      intro e he
      simp at he
      rcases he with rfl | rfl
      · exact WFEntry.file _ _
      · exact WFEntry.file _ _⟩
    (by
      unfold canonList
      simp only [List.map_cons, List.map_nil, canon_file]
      exact sortEntries_eq_of_perm (List.Perm.swap _ _ _) (by decide))
    rfl

/-- C2 counterexample: the claim says each document yields exactly one
output file at the mirrored relative path with only the extension swapped.
For the document "my note.md" the run writes site/mynote.html — the space
is removed from the filename — and no file exists at the path the claim
names, site/my note.html. -/
theorem C2_counterexample :
    ("site/mynote.html" ∈ fsKeys (mainRun (fun s => Except.ok s) (fun _ => WriteOutcome.ok)
      { docs := [Entry.file "my note.md" (.ok "x")], img := some [] }).outputFiles) ∧
    ("site/my note.html" ∉ fsKeys (mainRun (fun s => Except.ok s) (fun _ => WriteOutcome.ok)
      { docs := [Entry.file "my note.md" (.ok "x")], img := some [] }).outputFiles) := by
  have hwt := walkTree_singleton_ok (fun s => Except.ok s) "my note.md" "x"
    { Title := "mynote", Content := "x", Dir := ".", Filename := "mynote.html" } rfl rfl
  rw [mainRun_ok _ _ _ [] _ rfl hwt]
  constructor
  · have hmem := foldl_genStep_mem_keys (fun _ => WriteOutcome.ok)
      { Title := "mynote", Content := "x", Dir := ".", Filename := "mynote.html" }
      [{ Title := "mynote", Content := "x", Dir := ".", Filename := "mynote.html" }]
      (List.mem_singleton.mpr rfl) rfl
      (writeAll [] (([] : List (String × String)).map
        (fun f => (goJoin [outputDir, imgDir, f.1], f.2))), [])
    have heq : destPath
        { Title := "mynote", Content := "x", Dir := ".", Filename := "mynote.html" } =
      "site/mynote.html" := by decide
    rw [← heq]
    exact mem_fsKeys_fsWrite_of_mem _ _ hmem
  · refine not_mem_fsKeys_fsWrite ?_ (by decide)
    refine foldl_genStep_not_mem_keys ?_ _ ?_
    · intro q hq _
      rw [List.mem_singleton] at hq
      subst hq
      decide
    · simp [writeAll, fsKeys]

/-- C2 amended: every document file (name = stem + ".md") discovered below
directory components dcomps produces, in a run where all page writes
succeed, exactly one output file; its path is the output root joined with
the relative directory and with the stem, both with all space characters
removed, plus ".html". -/
theorem C2_amended (render : Renderer) (fs : InputFs) (assets : List (String × String))
    (pages : List Page) (dcomps : List String) (stem : List Char) {nm input : String}
    (himg : fs.img = some assets) (hwt : walkTree render fs.docs = .ok pages)
    (hdoc : DocFileAt dcomps nm (.ok input) fs.docs)
    (hnm : nm.data = stem ++ ('.' :: 'm' :: 'd' :: [])) (hs : '/' ∉ nm.data) :
    (fsKeys (mainRun render (fun _ => WriteOutcome.ok) fs).outputFiles).count
      (goJoin [outputDir, removeSpaces (dirOf dcomps),
        String.mk (stem.filter (fun c => decide (c ≠ ' '))) ++ ".html"]) = 1 := by
  have hpg : mkPage render dcomps stem input ∈ pages := by
    have hmem := docFile_page_mem hdoc rfl hnm hs hwt
    simpa using hmem
  rw [mainRun_ok render (fun _ => WriteOutcome.ok) fs assets pages himg hwt]
  have hmem2 : destPath (mkPage render dcomps stem input) ∈
      fsKeys (fsWrite (pages.foldl (genStep (fun _ => WriteOutcome.ok))
        (writeAll [] (assets.map (fun f => (goJoin [outputDir, imgDir, f.1], f.2))), [])).1
        indexPath (renderIndex pages)) :=
    mem_fsKeys_fsWrite_of_mem _ _ (foldl_genStep_mem_keys _ _ pages hpg rfl _)
  have hnd : (fsKeys (fsWrite (pages.foldl (genStep (fun _ => WriteOutcome.ok))
      (writeAll [] (assets.map (fun f => (goJoin [outputDir, imgDir, f.1], f.2))), [])).1
      indexPath (renderIndex pages))).Nodup :=
    nodup_fsKeys_fsWrite _ _ (foldl_genStep_keys_nodup pages _
      (writeAll_keys_nodup _ [] (by simp [fsKeys])))
  exact count_fsKeys_eq_one hnd hmem2

theorem C2_witness :
    (fsKeys (mainRun (fun s => Except.ok s) (fun _ => WriteOutcome.ok)
      { docs := [Entry.file "my note.md" (.ok "x")], img := some [] }).outputFiles).count
      (goJoin [outputDir, removeSpaces (dirOf []),
        String.mk ((['m', 'y', ' ', 'n', 'o', 't', 'e'] : List Char).filter
          (fun c => decide (c ≠ ' '))) ++ ".html"]) = 1 :=
  C2_amended _ _ [] [{ Title := "mynote", Content := "x", Dir := ".", Filename := "mynote.html" }]
    [] ['m', 'y', ' ', 'n', 'o', 't', 'e'] rfl
    (walkTree_singleton_ok _ "my note.md" "x" _ rfl rfl)
    (@DocFileAt.here "my note.md" (.ok "x") _ (List.mem_cons_self _ _))
    (by decide) (by decide)

/-- C3 counterexample: the claim says a rendering failure propagates as a
per-file error and the document produces no output page.  With a renderer
that fails on the bytes "BAD", processFile instead returns a successful
Page Record with empty content, and the run still writes the document's
output page site/a.html. -/
theorem C3_counterexample :
    processFile (fun s => if s = "BAD" then Except.error "render failure" else Except.ok s)
        "docs/a.md" "." (.ok "BAD") =
      .ok { Title := "a", Content := "", Dir := ".", Filename := "a.html" } ∧
    "site/a.html" ∈ fsKeys (mainRun
      (fun s => if s = "BAD" then Except.error "render failure" else Except.ok s)
      (fun _ => WriteOutcome.ok) { docs := [Entry.file "a.md" (.ok "BAD")], img := some [] }).outputFiles := by
  constructor
  · rfl
  · have hwt := walkTree_singleton_ok
      (fun s => if s = "BAD" then Except.error "render failure" else Except.ok s) "a.md" "BAD"
      { Title := "a", Content := "", Dir := ".", Filename := "a.html" } rfl rfl
    rw [mainRun_ok _ _ _ [] _ rfl hwt]
    have hmem := foldl_genStep_mem_keys (fun _ => WriteOutcome.ok)
      { Title := "a", Content := "", Dir := ".", Filename := "a.html" }
      [{ Title := "a", Content := "", Dir := ".", Filename := "a.html" }]
      (List.mem_singleton.mpr rfl) rfl
      (writeAll [] (([] : List (String × String)).map
        (fun f => (goJoin [outputDir, imgDir, f.1], f.2))), [])
    have heq : destPath { Title := "a", Content := "", Dir := ".", Filename := "a.html" } =
      "site/a.html" := by decide
    rw [← heq]
    exact mem_fsKeys_fsWrite_of_mem _ _ hmem

/-- C3 amended: when the renderer fails on a document's raw bytes, the
converter logs the failure and returns the empty string; Page Record
construction SUCCEEDS, with empty content and no error reaching the
caller, so the document still produces an output page like any other. -/
theorem C3_amended (render : Renderer) (input err : String)
    (hrender : render input = .error err) :
    convertMarkdownToHTML render input = "" ∧
    ∀ path dir, processFile render path dir (.ok input) =
      .ok { Title := removeSpaces (goTrimSuffix (baseName path) (goExt path))
            Content := ""
            Dir := dir
            Filename := removeSpaces (goTrimSuffix (baseName path) (goExt path)) ++ ".html" } := by
  have hc : convertMarkdownToHTML render input = "" := by
    unfold convertMarkdownToHTML
    rw [hrender]
  refine ⟨hc, fun path dir => ?_⟩
  unfold processFile
  dsimp only
  rw [hc]

theorem C3_witness :
    convertMarkdownToHTML
      (fun s => if s = "BAD" then Except.error "render failure" else Except.ok s) "BAD" = "" ∧
    ∀ path dir, processFile
        (fun s => if s = "BAD" then Except.error "render failure" else Except.ok s)
        path dir (.ok "BAD") =
      .ok { Title := removeSpaces (goTrimSuffix (baseName path) (goExt path))
            Content := ""
            Dir := dir
            Filename := removeSpaces (goTrimSuffix (baseName path) (goExt path)) ++ ".html" } :=
  C3_amended _ _ "render failure" rfl

/-- C10 counterexample: the claim says a per-page write failure always
leaves an index link pointing at a destination path where no file exists.
When tmpl.Execute is the failing operation, os.Create has already created
and truncated the file: in this run the page a.md fails to write and is
logged as failed, yet a file (here empty) exists at its destination path
site/a.html. -/
theorem C10_counterexample :
    (mainRun (fun s => Except.ok s) (fun _ => WriteOutcome.executeFail "")
      { docs := [Entry.file "a.md" (.ok "hi")], img := some [] }).errorLog =
      ["Error generating HTML for page a"] ∧
    fsFind (mainRun (fun s => Except.ok s) (fun _ => WriteOutcome.executeFail "")
        { docs := [Entry.file "a.md" (.ok "hi")], img := some [] }).outputFiles
      (destPath { Title := "a", Content := "hi", Dir := ".", Filename := "a.html" }) =
      some "" := by
  have hwt := walkTree_singleton_ok (fun s => Except.ok s) "a.md" "hi"
    { Title := "a", Content := "hi", Dir := ".", Filename := "a.html" } rfl rfl
  rw [mainRun_ok _ _ _ [] _ rfl hwt]
  exact ⟨rfl, rfl⟩

/-- C10 amended: the index holds one entry for every discovered Page
Record whether or not that record's own page write succeeded, and the
index itself is still written; at the failed page's destination path no
file exists when MkdirAll or os.Create was the failing operation, but when
tmpl.Execute failed after os.Create succeeded, a file holding the
partially written bytes is left there. -/
theorem C10_amended (render : Renderer) (writeOut : Page → WriteOutcome)
    (fs : InputFs) (assets : List (String × String)) (pages : List Page) (p : Page)
    (himg : fs.img = some assets) (hwt : walkTree render fs.docs = .ok pages)
    (hp : p ∈ pages) (hwfail : writeOut p ≠ .ok)
    (huniq : ∀ q ∈ pages, destPath q = destPath p → writeOut q = writeOut p)
    (hassets : ∀ f ∈ assets, goJoin [outputDir, imgDir, f.1] ≠ destPath p)
    (hidx : destPath p ≠ indexPath) :
    (∃ u v, renderIndex pages = u ++ (("<a href=\"" ++ indexLink p ++ "\">") ++ v)) ∧
    fsFind (mainRun render writeOut fs).outputFiles indexPath = some (renderIndex pages) ∧
    fsFind (mainRun render writeOut fs).outputFiles (destPath p) =
      (match writeOut p with
       | .executeFail w => some w
       | _ => none) := by
  refine ⟨renderIndex_contains hp, ?_, ?_⟩
  · rw [mainRun_ok render writeOut fs assets pages himg hwt]
    exact fsFind_fsWrite_self _ _ _
  · rw [mainRun_ok render writeOut fs assets pages himg hwt]
    rw [fsFind_fsWrite_other _ _ hidx]
    cases hout : writeOut p with
    | ok => exact absurd hout hwfail
    | createFail =>
      rw [fsFind_eq_none_iff]
      refine foldl_genStep_not_mem_keys ?_ _ ?_
      · intro q hq hqc heq
        exact hqc ((huniq q hq heq).trans hout)
      · intro hmem
        rcases mem_writeAll_keys _ _ hmem with h | ⟨f, hf, hfq⟩
        · simp [fsKeys] at h
        · obtain ⟨g, hg, hgeq⟩ := List.mem_map.mp hf
          refine hassets g hg ?_
          rw [← hgeq] at hfq
          exact hfq
    | executeFail w =>
      exact foldl_genStep_find_executeFail pages hp hout
        (fun q hq heq => (huniq q hq heq).trans hout) _

theorem C10_witness :
    (∃ u v, renderIndex [{ Title := "a", Content := "hi", Dir := ".", Filename := "a.html" }] =
      u ++ (("<a href=\"" ++
        indexLink { Title := "a", Content := "hi", Dir := ".", Filename := "a.html" } ++ "\">") ++ v)) ∧
    fsFind (mainRun (fun s => Except.ok s) (fun _ => WriteOutcome.executeFail "")
        { docs := [Entry.file "a.md" (.ok "hi")], img := some [] }).outputFiles indexPath =
      some (renderIndex [{ Title := "a", Content := "hi", Dir := ".", Filename := "a.html" }]) ∧
    fsFind (mainRun (fun s => Except.ok s) (fun _ => WriteOutcome.executeFail "")
        { docs := [Entry.file "a.md" (.ok "hi")], img := some [] }).outputFiles
      (destPath { Title := "a", Content := "hi", Dir := ".", Filename := "a.html" }) = some "" :=
  C10_amended _ _ _ [] _ _ rfl
    (walkTree_singleton_ok _ "a.md" "hi" _ rfl rfl)
    (List.mem_cons_self _ _)
    (by decide)
    (fun q _ _ => rfl)
    (fun f hf => absurd hf (List.not_mem_nil f))
    (by decide)

end Mindoc
